import Mathlib

/-!
Verification of the DDPM noise scheduler and training/sampling loops of the
diffusion-playground repository.

The repository's algorithmic core is the notebook
`notebook/01_introduction_to_diffusers.ipynb`: it constructs a `DDPMScheduler`,
corrupts clean images with `add_noise`, trains a noise-prediction model with an
MSE loss, and generates images with a hand-written sampling loop over
`scheduler.step`.  The scheduler itself lives in the external `diffusers`
library, so its schedule arrays, `add_noise` and `step` are modelled here from
the specification; the training and sampling loops are translated from the
notebook cells.  Tensors are modelled as lists of real numbers (a batch is a
list of per-item lists); schedule arithmetic is exact over `ℚ`, with `Real.sqrt`
applied at the points where the code takes square roots.
-/

unseal Rat.add Rat.mul Rat.inv Rat.sub

namespace Diffusion

/-! ### The variance schedule -/

/-- Modelled from the spec: the linear beta schedule.  `DDPMScheduler` with
`beta_schedule="linear"` places `num_train_timesteps` values evenly between
`beta_start` and `beta_end` (a `linspace`), so
`β_t = beta_start + (beta_end - beta_start) · t / (T - 1)`. -/
def betaLin (T : ℕ) (bs be : ℚ) (t : ℕ) : ℚ :=
  bs + (be - bs) * t / ((T : ℚ) - 1)

/-- Modelled from the spec: the precomputed array of betas, one per timestep. -/
def betas (T : ℕ) (bs be : ℚ) : List ℚ :=
  (List.range T).map (betaLin T bs be)

/-- Modelled from the spec: the array `α_t = 1 - β_t`. -/
def alphas (T : ℕ) (bs be : ℚ) : List ℚ :=
  (betas T bs be).map (fun b => 1 - b)

/-- Cumulative product of a list, as `torch.cumprod` computes it:
entry `t` of the result is the product of entries `0..t` of the input. -/
def cumprodAux (acc : ℚ) : List ℚ → List ℚ
  | [] => []
  | x :: xs => (acc * x) :: cumprodAux (acc * x) xs

/-- Cumulative product with initial accumulator `1`. -/
def cumprod (xs : List ℚ) : List ℚ :=
  cumprodAux 1 xs

/-- Modelled from the spec: the scheduler's precomputed lookup table
`ᾱ = cumprod(α)`, created once at construction. -/
def alphas_cumprod (T : ℕ) (bs be : ℚ) : List ℚ :=
  cumprod (alphas T bs be)

/-- Closed form of the spec's invariant: `ᾱ_t = ∏_{i ≤ t} (1 - β_i)`. -/
def alphaBar (T : ℕ) (bs be : ℚ) (t : ℕ) : ℚ :=
  ∏ i in Finset.range (t + 1), (1 - betaLin T bs be i)

/-- The value `ᾱ_{t-1}`, with the convention `ᾱ_{-1} = 1` used by the reverse
step. -/
def alphaBarPrev (T : ℕ) (bs be : ℚ) (t : ℕ) : ℚ :=
  if t = 0 then 1 else alphaBar T bs be (t - 1)

/-- The posterior variance `β̃_t = (1 - ᾱ_{t-1}) / (1 - ᾱ_t) · β_t` injected by
the reverse step at timestep `t`. -/
def postVar (T : ℕ) (bs be : ℚ) (t : ℕ) : ℚ :=
  (1 - alphaBarPrev T bs be t) / (1 - alphaBar T bs be t) * betaLin T bs be t

/-- Partial products of the numerators `9989001 - 199·k` of the default
schedule's alphas, used to evaluate the terminal `ᾱ` exactly over `ℕ`. -/
def natProd : ℕ → ℕ
  | 0 => 1
  | k + 1 => natProd k * (9989001 - 199 * k)

/-! ### Tensors and the scheduler's operations

A sample tensor is flattened to a `List ℝ`; a batch is a list of such lists.
-/

/-- Three-way zip, used to broadcast a per-item timestep over a batch. -/
def zipWith3 {α β γ δ : Type*} (f : α → β → γ → δ) :
    List α → List β → List γ → List δ
  | a :: as, b :: bs, c :: cs => f a b c :: zipWith3 f as bs cs
  | _, _, _ => []

/-- Modelled from the spec: `DDPMScheduler.add_noise`.  Computes
`noisy = sqrt(ᾱ_t) · clean + sqrt(1 - ᾱ_t) · noise` elementwise, broadcasting
each batch item's own timestep, reading `ᾱ` from the precomputed lookup table;
a timestep outside `[0, T-1]` (or a shape mismatch) is an input-validation
failure, returning `none`. -/
noncomputable def add_noise (T : ℕ) (bs be : ℚ) (clean noise : List (List ℝ))
    (ts : List ℕ) : Option (List (List ℝ)) :=
  if ts.length = clean.length ∧ noise.map List.length = clean.map List.length ∧
      ∀ t ∈ ts, t < T then
    some (zipWith3 (fun x n t =>
      List.zipWith (fun xi ni =>
        Real.sqrt (((alphas_cumprod T bs be).getD t 0 : ℚ)) * xi +
          Real.sqrt (1 - (((alphas_cumprod T bs be).getD t 0 : ℚ) : ℝ)) * ni)
        x n) clean noise ts)
  else none

/-- Modelled from the spec: `DDPMScheduler.step`.  Forms the predicted clean
sample `x0_hat = (x - sqrt(1-ᾱ_t)·ε̂) / sqrt(ᾱ_t)`, takes the posterior mean
built from `β_t`, `α_t`, `ᾱ_t`, `ᾱ_{t-1}` (with `ᾱ_{-1} = 1`), and adds fresh
noise `z` scaled by the posterior standard deviation except at `t = 0`;
a timestep outside `[0, T-1]` (or a shape mismatch) is an input-validation
failure, returning `none`. -/
noncomputable def step (T : ℕ) (bs be : ℚ) (model_output : List ℝ) (t : ℕ)
    (sample z : List ℝ) : Option (List ℝ) :=
  if t < T ∧ model_output.length = sample.length ∧ z.length = sample.length then
    some (zipWith3 (fun e x zi =>
      Real.sqrt (alphaBarPrev T bs be t : ℚ) * (betaLin T bs be t : ℚ) /
          (1 - (((alphas_cumprod T bs be).getD t 0 : ℚ) : ℝ)) *
          ((x - Real.sqrt (1 - (((alphas_cumprod T bs be).getD t 0 : ℚ) : ℝ)) * e) /
            Real.sqrt (((alphas_cumprod T bs be).getD t 0 : ℚ))) +
        Real.sqrt (1 - ((betaLin T bs be t : ℚ) : ℝ)) *
          (1 - ((alphaBarPrev T bs be t : ℚ) : ℝ)) /
          (1 - (((alphas_cumprod T bs be).getD t 0 : ℚ) : ℝ)) * x +
        (if t = 0 then 0 else
          Real.sqrt ((1 - ((alphaBarPrev T bs be t : ℚ) : ℝ)) /
              (1 - (((alphas_cumprod T bs be).getD t 0 : ℚ) : ℝ)) *
              ((betaLin T bs be t : ℚ) : ℝ)) * zi))
      model_output sample z)
  else none

/-- The closed-form posterior mean of the reverse step at timestep `t`, written
with the cumulative-product characterisation `alphaBar` of the lookup table. -/
noncomputable def ddpmMean (T : ℕ) (bs be : ℚ) (t : ℕ) (e x : ℝ) : ℝ :=
  Real.sqrt (alphaBarPrev T bs be t : ℚ) * (betaLin T bs be t : ℚ) /
      (1 - ((alphaBar T bs be t : ℚ) : ℝ)) *
      ((x - Real.sqrt (1 - ((alphaBar T bs be t : ℚ) : ℝ)) * e) /
        Real.sqrt (alphaBar T bs be t : ℚ)) +
    Real.sqrt (1 - ((betaLin T bs be t : ℚ) : ℝ)) *
      (1 - ((alphaBarPrev T bs be t : ℚ) : ℝ)) /
      (1 - ((alphaBar T bs be t : ℚ) : ℝ)) * x

/-! ### The sampling loop

Translated from the notebook's sampling cell: starting from a Gaussian sample,
iterate over `noise_scheduler.timesteps`, query the model, and replace the
sample with `scheduler.step(...).prev_sample`.  The opaque model is a function
argument, and the per-iteration Gaussian draws are an explicit stream `zs`.
-/

/-- Modelled from the spec: the scheduler's `timesteps` attribute, the full
range of timesteps in strictly descending order `T-1, T-2, …, 0`. -/
def timesteps (T : ℕ) : List ℕ :=
  (List.range T).reverse

/-- One iteration of the notebook's sampling loop: ask the model for its
prediction at the current sample and timestep, then replace the sample with
the result of `step`. -/
noncomputable def sampleStep (T : ℕ) (bs be : ℚ) (model : List ℝ → ℕ → List ℝ)
    (zs : ℕ → List ℝ) (acc : Option (List ℝ)) (t : ℕ) : Option (List ℝ) :=
  acc.bind fun s => step T bs be (model s t) t s (zs t)

/-- The notebook's sampling loop: fold the per-timestep update over the
scheduler's timesteps, starting from the initial random sample. -/
noncomputable def sampling_loop (T : ℕ) (bs be : ℚ)
    (model : List ℝ → ℕ → List ℝ) (zs : ℕ → List ℝ) (init : List ℝ) :
    Option (List ℝ) :=
  (timesteps T).foldl (sampleStep T bs be model zs) (some init)

/-- Reference recursion for the sampling loop: `runFrom n acc` performs the
iterations for timesteps `n-1, n-2, …, 0` starting from `acc`, one `step` per
timestep. -/
noncomputable def runFrom (T : ℕ) (bs be : ℚ) (model : List ℝ → ℕ → List ℝ)
    (zs : ℕ → List ℝ) : ℕ → Option (List ℝ) → Option (List ℝ)
  | 0, acc => acc
  | n + 1, acc => runFrom T bs be model zs n (sampleStep T bs be model zs acc n)

/-! ### The training loop

Translated from the notebook's training cell: per batch, draw noise and one
timestep per image, corrupt with `add_noise`, predict with the model, and take
the mean squared error between prediction and injected noise.
-/

/-- Mean squared error, `F.mse_loss`: the mean over all elements of the squared
difference. -/
noncomputable def mse_loss (pred target : List ℝ) : ℝ :=
  (List.zipWith (fun a b => (a - b) ^ 2) pred target).sum / pred.length

/-- The loss computation of one training iteration: corrupt the clean batch at
the drawn timesteps, run the model on the noisy batch, and compare the
prediction against the injected noise with `mse_loss` over all elements. -/
noncomputable def train_step (T : ℕ) (bs be : ℚ)
    (model : List (List ℝ) → List ℕ → List (List ℝ))
    (clean noise : List (List ℝ)) (ts : List ℕ) : Option ℝ :=
  (add_noise T bs be clean noise ts).map fun noisy =>
    mse_loss (model noisy ts).flatten noise.flatten

/-- The state the training loop threads: the externally updated model
parameters and the running list of logged losses. -/
structure TrainState (P : Type*) where
  params : P
  losses : List ℝ

/-- One iteration of the notebook's training loop: compute the loss, append it
to the loss log, and delegate the parameter update to the external
optimizer. -/
noncomputable def train_iteration {P : Type*} (T : ℕ) (bs be : ℚ)
    (modelOf : P → List (List ℝ) → List ℕ → List (List ℝ))
    (optStep : P → ℝ → P) (clean noise : List (List ℝ)) (ts : List ℕ)
    (st : TrainState P) : TrainState P :=
  let l := (train_step T bs be (modelOf st.params) clean noise ts).getD 0
  ⟨optStep st.params l, st.losses ++ [l]⟩

/-- The training loop over a list of batches, each carrying its clean images,
drawn noise and drawn timesteps. -/
noncomputable def train_run {P : Type*} (T : ℕ) (bs be : ℚ)
    (modelOf : P → List (List ℝ) → List ℕ → List (List ℝ))
    (optStep : P → ℝ → P)
    (batches : List (List (List ℝ) × List (List ℝ) × List ℕ))
    (st : TrainState P) : TrainState P :=
  batches.foldl
    (fun s b => train_iteration T bs be modelOf optStep b.1 b.2.1 b.2.2 s) st

/-- Modelled from the spec: torch autograd's `tensor.backward(gradient)`
seeds the vector-Jacobian product with `gradient`, so for a scalar-valued
differentiable loss the accumulated parameter gradient is the seed times the
loss's derivative. -/
noncomputable def backward_seeded (L : ℝ → ℝ) (g θ : ℝ) : ℝ :=
  g * deriv L θ

/-- The gradient the notebook's `loss.backward(loss)` produces: the backward
pass seeded with the loss value itself. -/
noncomputable def backward_self_seeded (L : ℝ → ℝ) (θ : ℝ) : ℝ :=
  backward_seeded L (L θ) θ

/-- The state visible to the generation run: model parameters, accumulated
gradients, the scheduler's precomputed table, and the evolving sample. -/
structure GenState (P : Type*) where
  params : P
  grads : List ℝ
  sched : List ℚ
  sample : List ℝ

/-- One iteration of the sampling loop with the surrounding state made
explicit: only the sample is replaced; the model is queried under
`torch.no_grad()` and no optimizer is invoked, so parameters, gradients and
the schedule table are untouched. -/
noncomputable def gen_iteration {P : Type*} (T : ℕ) (bs be : ℚ)
    (modelOf : P → List ℝ → ℕ → List ℝ) (zs : ℕ → List ℝ)
    (st : GenState P) (t : ℕ) : GenState P :=
  match step T bs be (modelOf st.params st.sample t) t st.sample (zs t) with
  | some s => ⟨st.params, st.grads, st.sched, s⟩
  | none => st

/-- The sampling loop threading the full generation state. -/
noncomputable def sampling_run {P : Type*} (T : ℕ) (bs be : ℚ)
    (modelOf : P → List ℝ → ℕ → List ℝ) (zs : ℕ → List ℝ)
    (st : GenState P) : GenState P :=
  (timesteps T).foldl (gen_iteration T bs be modelOf zs) st

/-! ### Basic schedule lemmas -/

lemma cumprodAux_length (acc : ℚ) (xs : List ℚ) :
    (cumprodAux acc xs).length = xs.length := by
  induction xs generalizing acc with
  | nil => rfl
  | cons x xs ih => simp [cumprodAux, ih]

lemma betas_length (T : ℕ) (bs be : ℚ) : (betas T bs be).length = T := by
  simp [betas]

lemma alphas_length (T : ℕ) (bs be : ℚ) : (alphas T bs be).length = T := by
  simp [alphas, betas]

lemma alphas_cumprod_length (T : ℕ) (bs be : ℚ) :
    (alphas_cumprod T bs be).length = T := by
  simp [alphas_cumprod, cumprod, cumprodAux_length, alphas_length]

lemma cumprodAux_getD (acc : ℚ) (xs : List ℚ) (t : ℕ) (ht : t < xs.length) :
    (cumprodAux acc xs).getD t 0 =
      acc * ∏ i in Finset.range (t + 1), xs.getD i 0 := by
  induction xs generalizing acc t with
  | nil => simp at ht
  | cons x xs ih =>
    cases t with
    | zero => simp [cumprodAux]
    | succ t =>
      have ht' : t < xs.length := by simpa using ht
      simp only [cumprodAux, List.getD_cons_succ]
      rw [ih (acc * x) t ht']
      rw [Finset.prod_range_succ' (fun i => (x :: xs).getD i 0) (t + 1)]
      simp only [List.getD_cons_succ, List.getD_cons_zero]
      ring

lemma betas_getD (T : ℕ) (bs be : ℚ) (t : ℕ) (ht : t < T) :
    (betas T bs be).getD t 0 = betaLin T bs be t := by
  unfold betas
  rw [List.getD_eq_getElem _ _ (by simpa using ht)]
  simp [ht]

lemma alphas_getD (T : ℕ) (bs be : ℚ) (t : ℕ) (ht : t < T) :
    (alphas T bs be).getD t 0 = 1 - betaLin T bs be t := by
  unfold alphas
  rw [List.getD_eq_getElem _ _ (by simp [betas_length]; exact ht)]
  simp only [List.getElem_map]
  rw [← betas_getD T bs be t ht, List.getD_eq_getElem _ _ (by simpa [betas_length] using ht)]

/-- The lookup table agrees with the closed-form product:
`alphas_cumprod[t] = ∏_{i ≤ t} (1 - β_i)` for every valid `t`. -/
lemma alphas_cumprod_getD (T : ℕ) (bs be : ℚ) (t : ℕ) (ht : t < T) :
    (alphas_cumprod T bs be).getD t 0 = alphaBar T bs be t := by
  unfold alphas_cumprod cumprod
  rw [cumprodAux_getD 1 _ t (by rw [alphas_length]; exact ht), one_mul]
  unfold alphaBar
  refine Finset.prod_congr rfl ?_
  intro i hi
  exact alphas_getD T bs be i
    (Nat.lt_of_le_of_lt (Nat.lt_succ_iff.mp (Finset.mem_range.mp hi)) ht)

lemma betaLin_pos (T : ℕ) (bs be : ℚ) (t : ℕ) (hT : 1 ≤ T) (h0 : 0 < bs)
    (hbe : bs ≤ be) : 0 < betaLin T bs be t := by
  unfold betaLin
  have h1 : (0 : ℚ) ≤ (be - bs) * t / ((T : ℚ) - 1) := by
    apply div_nonneg
    · exact mul_nonneg (by linarith) (by positivity)
    · have : (1 : ℚ) ≤ (T : ℚ) := by exact_mod_cast hT
      linarith
  linarith

lemma betaLin_le (T : ℕ) (bs be : ℚ) (t : ℕ) (ht : t < T) (hbe : bs ≤ be) :
    betaLin T bs be t ≤ be := by
  unfold betaLin
  rcases Nat.lt_or_ge T 2 with h2 | h2
  · have hT1 : T = 1 := by omega
    have ht0 : t = 0 := by omega
    subst hT1
    subst ht0
    norm_num
    exact hbe
  · have hpos : (0 : ℚ) < (T : ℚ) - 1 := by
      have : (2 : ℚ) ≤ (T : ℚ) := by exact_mod_cast h2
      linarith
    have htq : (t : ℚ) ≤ (T : ℚ) - 1 := by
      have : (t : ℚ) + 1 ≤ (T : ℚ) := by exact_mod_cast ht
      linarith
    have hdiv : (be - bs) * t / ((T : ℚ) - 1) ≤ be - bs := by
      rw [div_le_iff hpos]
      exact mul_le_mul_of_nonneg_left htq (by linarith)
    linarith

lemma betaLin_lt_one (T : ℕ) (bs be : ℚ) (t : ℕ) (ht : t < T) (hbe : bs ≤ be)
    (h1 : be < 1) : betaLin T bs be t < 1 :=
  lt_of_le_of_lt (betaLin_le T bs be t ht hbe) h1

lemma alphaBar_pos (T : ℕ) (bs be : ℚ) (t : ℕ) (ht : t < T) (hbe : bs ≤ be)
    (h1 : be < 1) : 0 < alphaBar T bs be t := by
  unfold alphaBar
  apply Finset.prod_pos
  intro i hi
  have hiT : i < T :=
    Nat.lt_of_le_of_lt (Nat.lt_succ_iff.mp (Finset.mem_range.mp hi)) ht
  have := betaLin_lt_one T bs be i hiT hbe h1
  linarith

lemma alphaBar_succ (T : ℕ) (bs be : ℚ) (t : ℕ) :
    alphaBar T bs be (t + 1) = alphaBar T bs be t * (1 - betaLin T bs be (t + 1)) := by
  unfold alphaBar
  rw [Finset.prod_range_succ]

lemma alphaBar_anti (T : ℕ) (bs be : ℚ) (t t' : ℕ) (htt : t ≤ t') (ht' : t' < T)
    (hT : 1 ≤ T) (h0 : 0 < bs) (hbe : bs ≤ be) (h1 : be < 1) :
    alphaBar T bs be t' ≤ alphaBar T bs be t := by
  induction t' with
  | zero =>
    have : t = 0 := Nat.le_zero.mp htt
    simp [this]
  | succ k ih =>
    rcases Nat.lt_or_ge t (k + 1) with hlt | hge
    · have hk : k < T := Nat.lt_of_succ_lt ht'
      have hstep : alphaBar T bs be (k + 1) ≤ alphaBar T bs be k := by
        rw [alphaBar_succ]
        have hb := betaLin_pos T bs be (k + 1) hT h0 hbe
        have hpos := alphaBar_pos T bs be k hk hbe h1
        have hle : 1 - betaLin T bs be (k + 1) ≤ 1 := by linarith
        exact mul_le_of_le_one_right (le_of_lt hpos) hle
      exact le_trans hstep (ih (Nat.lt_succ_iff.mp hlt) hk)
    · have : t = k + 1 := le_antisymm htt hge
      simp [this]

lemma alphaBar_default_factor (i : ℕ) (hi : i < 1000) :
    1 - betaLin 1000 (1/10000) (1/50) i = ((9989001 - 199 * i : ℕ) : ℚ) / 9990000 := by
  have hle : 199 * i ≤ 9989001 := by omega
  rw [Nat.cast_sub hle]
  unfold betaLin
  push_cast
  field_simp
  ring

lemma alphaBar_default_eq (k : ℕ) :
    ∏ i in Finset.range k, (1 - betaLin 1000 (1/10000) (1/50) i) =
      (natProd k : ℚ) / 9990000 ^ k ∨ 1000 < k := by
  induction k with
  | zero => left; simp [natProd]
  | succ k ih =>
    rcases Nat.lt_or_ge 1000 (k + 1) with hk | hk
    · right; exact hk
    · left
      rcases ih with ih | ih
      · rw [Finset.prod_range_succ, ih, alphaBar_default_factor k (by omega)]
        show _ = ((natProd k * (9989001 - 199 * k) : ℕ) : ℚ) / 9990000 ^ (k + 1)
        rw [Nat.cast_mul, pow_succ]
        exact div_mul_div_comm _ _ _ _
      · omega

lemma alphaBar_default_999 :
    alphaBar 1000 (1/10000) (1/50) 999 = (natProd 1000 : ℚ) / 9990000 ^ 1000 := by
  have h := alphaBar_default_eq 1000
  rcases h with h | h
  · exact h
  · omega

set_option maxRecDepth 100000 in
set_option exponentiation.threshold 2000 in
lemma natProd_lt : 10000 * natProd 1000 < 9990000 ^ 1000 := by decide

lemma alphaBar_default_bound : alphaBar 1000 (1/10000) (1/50) 999 < 1/10000 := by
  rw [alphaBar_default_999]
  rw [div_lt_div_iff (by positivity) (by norm_num)]
  rw [one_mul, mul_comm]
  exact_mod_cast natProd_lt

lemma betaLin_default_zero : betaLin 1000 (1/10000) (1/50) 0 = 1/10000 := by
  unfold betaLin
  norm_num

lemma alphaBar_default_zero : alphaBar 1000 (1/10000) (1/50) 0 = 9999/10000 := by
  unfold alphaBar
  rw [Finset.prod_range_one, betaLin_default_zero]
  norm_num

/-! ### List indexing lemmas for the zips -/

lemma zipWith3_length {α β γ δ : Type*} (f : α → β → γ → δ) :
    ∀ (as : List α) (ls : List β) (cs : List γ),
      (zipWith3 f as ls cs).length = min as.length (min ls.length cs.length) := by
  intro as
  induction as with
  | nil => intro ls cs; cases ls <;> cases cs <;> simp [zipWith3]
  | cons a as ih =>
    intro ls cs
    cases ls with
    | nil => simp [zipWith3]
    | cons b ls =>
      cases cs with
      | nil => simp [zipWith3]
      | cons c cs =>
        simp only [zipWith3, List.length_cons, ih]
        omega

lemma zipWith3_getD {α β γ δ : Type*} (f : α → β → γ → δ) :
    ∀ (as : List α) (ls : List β) (cs : List γ) (i : ℕ),
      i < as.length → i < ls.length → i < cs.length →
      ∀ (d : δ) (da : α) (db : β) (dc : γ),
        (zipWith3 f as ls cs).getD i d =
          f (as.getD i da) (ls.getD i db) (cs.getD i dc) := by
  intro as
  induction as with
  | nil => intro ls cs i h1; simp at h1
  | cons a as ih =>
    intro ls cs i h1 h2 h3 d da db dc
    cases ls with
    | nil => simp at h2
    | cons b ls =>
      cases cs with
      | nil => simp at h3
      | cons c cs =>
        cases i with
        | zero => simp [zipWith3]
        | succ i =>
          simp only [zipWith3, List.getD_cons_succ]
          exact ih ls cs i (by simpa using h1) (by simpa using h2)
            (by simpa using h3) d da db dc

lemma zipWith_getD {α β γ : Type*} (f : α → β → γ) :
    ∀ (as : List α) (ls : List β) (i : ℕ),
      i < as.length → i < ls.length →
      ∀ (d : γ) (da : α) (db : β),
        (List.zipWith f as ls).getD i d = f (as.getD i da) (ls.getD i db) := by
  intro as
  induction as with
  | nil => intro ls i h1; simp at h1
  | cons a as ih =>
    intro ls i h1 h2 d da db
    cases ls with
    | nil => simp at h2
    | cons b ls =>
      cases i with
      | zero => simp
      | succ i =>
        simp only [List.zipWith_cons_cons, List.getD_cons_succ]
        exact ih ls i (by simpa using h1) (by simpa using h2) d da db

lemma zipWith_sum_eq {α β : Type*} (f : α → β → ℝ) (da : α) (db : β) :
    ∀ (as : List α) (ls : List β), as.length = ls.length →
      (List.zipWith f as ls).sum =
        ∑ i in Finset.range as.length, f (as.getD i da) (ls.getD i db) := by
  intro as
  induction as with
  | nil => intro ls h; simp
  | cons a as ih =>
    intro ls h
    cases ls with
    | nil => simp at h
    | cons b ls =>
      simp only [List.zipWith_cons_cons, List.sum_cons, List.length_cons]
      rw [Finset.sum_range_succ' (fun i => f ((a :: as).getD i da) ((b :: ls).getD i db))]
      simp only [List.getD_cons_succ, List.getD_cons_zero]
      rw [ih ls (by simpa using h)]
      ring

/-! ### Characterisation of add_noise -/

lemma add_noise_some (T : ℕ) (bs be : ℚ) (clean noise : List (List ℝ))
    (ts : List ℕ) (hts : ts.length = clean.length)
    (hshape : noise.map List.length = clean.map List.length)
    (hvalid : ∀ t ∈ ts, t < T) :
    add_noise T bs be clean noise ts =
      some (zipWith3 (fun x n t =>
        List.zipWith (fun xi ni =>
          Real.sqrt (((alphas_cumprod T bs be).getD t 0 : ℚ)) * xi +
            Real.sqrt (1 - (((alphas_cumprod T bs be).getD t 0 : ℚ) : ℝ)) * ni)
          x n) clean noise ts) := by
  unfold add_noise
  rw [if_pos ⟨hts, hshape, hvalid⟩]

lemma noise_length_eq (clean noise : List (List ℝ))
    (hshape : noise.map List.length = clean.map List.length) :
    noise.length = clean.length := by
  have := congrArg List.length hshape
  simpa using this

lemma noise_item_length (clean noise : List (List ℝ))
    (hshape : noise.map List.length = clean.map List.length) (b : ℕ) :
    (noise.getD b []).length = (clean.getD b []).length := by
  have h0 : (List.length ([] : List ℝ)) = 0 := rfl
  have h1 : (noise.map List.length).getD b 0 = (noise.getD b []).length := by
    rw [← h0, List.getD_map]
  have h2 : (clean.map List.length).getD b 0 = (clean.getD b []).length := by
    rw [← h0, List.getD_map]
  rw [← h1, ← h2, hshape]

lemma add_noise_spec (T : ℕ) (bs be : ℚ) (clean noise : List (List ℝ))
    (ts : List ℕ) (hts : ts.length = clean.length)
    (hshape : noise.map List.length = clean.map List.length)
    (hvalid : ∀ t ∈ ts, t < T) :
    ∃ out, add_noise T bs be clean noise ts = some out ∧
      out.length = clean.length ∧
      (∀ b, (out.getD b []).length = (clean.getD b []).length) ∧
      (∀ b j, b < clean.length → j < (clean.getD b []).length →
        (out.getD b []).getD j 0 =
          Real.sqrt ((alphaBar T bs be (ts.getD b 0) : ℚ)) *
              (clean.getD b []).getD j 0 +
            Real.sqrt (1 - ((alphaBar T bs be (ts.getD b 0) : ℚ) : ℝ)) *
              (noise.getD b []).getD j 0) := by
  have hnl := noise_length_eq clean noise hshape
  refine ⟨_, add_noise_some T bs be clean noise ts hts hshape hvalid, ?_, ?_, ?_⟩
  · rw [zipWith3_length]
    omega
  · intro b
    rcases Nat.lt_or_ge b clean.length with hb | hb
    · rw [zipWith3_getD _ clean noise ts b hb (by omega) (by omega) [] [] [] 0]
      rw [List.length_zipWith, noise_item_length clean noise hshape b]
      omega
    · rw [List.getD_eq_default _ _ (by rw [zipWith3_length]; omega),
        List.getD_eq_default _ _ (by omega)]
  · intro b j hb hj
    rw [zipWith3_getD _ clean noise ts b hb (by omega) (by omega) [] [] [] 0]
    have htb : ts.getD b 0 < T := by
      have hb' : b < ts.length := by omega
      rw [List.getD_eq_getElem _ _ hb']
      exact hvalid _ (List.getElem_mem hb')
    rw [zipWith_getD _ (clean.getD b []) (noise.getD b []) j hj
      (by rw [noise_item_length clean noise hshape b]; exact hj) 0 0 0]
    rw [alphas_cumprod_getD T bs be _ htb]

/-! ### Characterisation of step -/

lemma step_some (T : ℕ) (bs be : ℚ) (mo : List ℝ) (t : ℕ) (sample z : List ℝ)
    (ht : t < T) (hmo : mo.length = sample.length)
    (hz : z.length = sample.length) :
    step T bs be mo t sample z =
      some (zipWith3 (fun e x zi =>
        Real.sqrt (alphaBarPrev T bs be t : ℚ) * (betaLin T bs be t : ℚ) /
            (1 - (((alphas_cumprod T bs be).getD t 0 : ℚ) : ℝ)) *
            ((x - Real.sqrt (1 - (((alphas_cumprod T bs be).getD t 0 : ℚ) : ℝ)) * e) /
              Real.sqrt (((alphas_cumprod T bs be).getD t 0 : ℚ))) +
          Real.sqrt (1 - ((betaLin T bs be t : ℚ) : ℝ)) *
            (1 - ((alphaBarPrev T bs be t : ℚ) : ℝ)) /
            (1 - (((alphas_cumprod T bs be).getD t 0 : ℚ) : ℝ)) * x +
          (if t = 0 then 0 else
            Real.sqrt ((1 - ((alphaBarPrev T bs be t : ℚ) : ℝ)) /
                (1 - (((alphas_cumprod T bs be).getD t 0 : ℚ) : ℝ)) *
                ((betaLin T bs be t : ℚ) : ℝ)) * zi))
        mo sample z) := by
  unfold step
  rw [if_pos ⟨ht, hmo, hz⟩]

lemma postVar_cast (T : ℕ) (bs be : ℚ) (t : ℕ) :
    ((postVar T bs be t : ℚ) : ℝ) =
      (1 - ((alphaBarPrev T bs be t : ℚ) : ℝ)) /
        (1 - ((alphaBar T bs be t : ℚ) : ℝ)) * ((betaLin T bs be t : ℚ) : ℝ) := by
  unfold postVar
  push_cast
  ring

lemma postVar_zero (T : ℕ) (bs be : ℚ) : postVar T bs be 0 = 0 := by
  unfold postVar alphaBarPrev
  simp

lemma step_spec (T : ℕ) (bs be : ℚ) (mo : List ℝ) (t : ℕ) (sample z : List ℝ)
    (ht : t < T) (hmo : mo.length = sample.length)
    (hz : z.length = sample.length) :
    ∃ out, step T bs be mo t sample z = some out ∧
      out.length = sample.length ∧
      ∀ j, j < sample.length →
        out.getD j 0 =
          ddpmMean T bs be t (mo.getD j 0) (sample.getD j 0) +
            (if t = 0 then 0 else
              Real.sqrt ((postVar T bs be t : ℚ)) * z.getD j 0) := by
  refine ⟨_, step_some T bs be mo t sample z ht hmo hz, ?_, ?_⟩
  · rw [zipWith3_length]
    omega
  · intro j hj
    rw [zipWith3_getD _ mo sample z j (by omega) hj (by omega) 0 0 0 0]
    rw [alphas_cumprod_getD T bs be t ht]
    rw [postVar_cast]
    rfl

lemma step_zero_no_noise (T : ℕ) (bs be : ℚ) (mo : List ℝ) (sample z z' : List ℝ)
    (hT : 0 < T) (hmo : mo.length = sample.length)
    (hz : z.length = sample.length) (hz' : z'.length = sample.length) :
    step T bs be mo 0 sample z = step T bs be mo 0 sample z' := by
  rw [step_some T bs be mo 0 sample z hT hmo hz,
      step_some T bs be mo 0 sample z' hT hmo hz']
  congr 1
  apply List.ext_getElem
  · rw [zipWith3_length, zipWith3_length]
    omega
  · intro i h1 h2
    have hi : i < mo.length := by
      rw [zipWith3_length] at h1
      omega
    rw [← List.getD_eq_getElem _ 0 h1, ← List.getD_eq_getElem _ 0 h2]
    rw [zipWith3_getD _ mo sample z i hi (by omega) (by omega) 0 0 0 0,
        zipWith3_getD _ mo sample z' i hi (by omega) (by omega) 0 0 0 0]
    simp

/-! ### The timestep sequence and the sampling loop -/

lemma timesteps_length (T : ℕ) : (timesteps T).length = T := by
  simp [timesteps]

lemma timesteps_succ (n : ℕ) : timesteps (n + 1) = n :: timesteps n := by
  simp [timesteps, List.range_succ]

lemma timesteps_sorted (T : ℕ) : List.Pairwise (· > ·) (timesteps T) := by
  rw [timesteps, List.pairwise_reverse]
  exact List.pairwise_lt_range T

lemma timesteps_getD (T i : ℕ) (hi : i < T) :
    (timesteps T).getD i 0 = T - 1 - i := by
  unfold timesteps
  rw [List.getD_eq_getElem _ _ (by simpa using hi)]
  rw [List.getElem_reverse]
  simp

lemma foldl_runFrom (T : ℕ) (bs be : ℚ) (model : List ℝ → ℕ → List ℝ)
    (zs : ℕ → List ℝ) :
    ∀ (n : ℕ) (acc : Option (List ℝ)),
      (timesteps n).foldl (sampleStep T bs be model zs) acc =
        runFrom T bs be model zs n acc := by
  intro n
  induction n with
  | zero => intro acc; rfl
  | succ n ih =>
    intro acc
    rw [timesteps_succ, List.foldl_cons, runFrom, ih]

/-! ### Frame lemmas for the stateful loops -/

lemma gen_iteration_frame {P : Type*} (T : ℕ) (bs be : ℚ)
    (modelOf : P → List ℝ → ℕ → List ℝ) (zs : ℕ → List ℝ)
    (st : GenState P) (t : ℕ) :
    (gen_iteration T bs be modelOf zs st t).params = st.params ∧
      (gen_iteration T bs be modelOf zs st t).grads = st.grads ∧
      (gen_iteration T bs be modelOf zs st t).sched = st.sched := by
  unfold gen_iteration
  cases step T bs be (modelOf st.params st.sample t) t st.sample (zs t) <;> simp

lemma sampling_run_frame {P : Type*} (T : ℕ) (bs be : ℚ)
    (modelOf : P → List ℝ → ℕ → List ℝ) (zs : ℕ → List ℝ) :
    ∀ (l : List ℕ) (st : GenState P),
      ((l.foldl (gen_iteration T bs be modelOf zs) st).params = st.params ∧
       (l.foldl (gen_iteration T bs be modelOf zs) st).grads = st.grads ∧
       (l.foldl (gen_iteration T bs be modelOf zs) st).sched = st.sched) := by
  intro l
  induction l with
  | nil => intro st; exact ⟨rfl, rfl, rfl⟩
  | cons t l ih =>
    intro st
    rw [List.foldl_cons]
    obtain ⟨h1, h2, h3⟩ := ih (gen_iteration T bs be modelOf zs st t)
    obtain ⟨g1, g2, g3⟩ := gen_iteration_frame T bs be modelOf zs st t
    exact ⟨h1.trans g1, h2.trans g2, h3.trans g3⟩

lemma train_run_losses {P : Type*} (T : ℕ) (bs be : ℚ)
    (modelOf : P → List (List ℝ) → List ℕ → List (List ℝ))
    (optStep : P → ℝ → P) :
    ∀ (batches : List (List (List ℝ) × List (List ℝ) × List ℕ))
      (st : TrainState P),
      ∃ new : List ℝ,
        (train_run T bs be modelOf optStep batches st).losses =
          st.losses ++ new ∧ new.length = batches.length := by
  intro batches
  induction batches with
  | nil => intro st; exact ⟨[], by simp [train_run], rfl⟩
  | cons b batches ih =>
    intro st
    obtain ⟨new, hnew, hlen⟩ :=
      ih (train_iteration T bs be modelOf optStep b.1 b.2.1 b.2.2 st)
    refine ⟨(train_step T bs be (modelOf st.params) b.1 b.2.1 b.2.2).getD 0 :: new,
      ?_, by simp [hlen]⟩
    unfold train_run at hnew ⊢
    rw [List.foldl_cons]
    rw [hnew]
    unfold train_iteration
    simp

lemma mse_loss_eq_sum (p q : List ℝ) (h : p.length = q.length) :
    mse_loss p q =
      (∑ i in Finset.range p.length, (p.getD i 0 - q.getD i 0) ^ 2) / p.length := by
  unfold mse_loss
  rw [zipWith_sum_eq _ 0 0 p q h]

/-! ### The claims -/

/-- C1: for every clean batch, noise batch of the same shape, and per-item
timestep vector with all entries in `[0, T-1]`, `add_noise` succeeds and
returns a batch of exactly the shape of the clean input whose entries are
`sqrt(ᾱ_t)·clean + sqrt(1-ᾱ_t)·noise`, computed elementwise with each batch
item's own timestep, where `ᾱ_t = ∏_{i ≤ t} (1-β_i)`. -/
theorem claim_C1_add_noise (T : ℕ) (bs be : ℚ) (clean noise : List (List ℝ))
    (ts : List ℕ) (hts : ts.length = clean.length)
    (hshape : noise.map List.length = clean.map List.length)
    (hvalid : ∀ t ∈ ts, t < T) :
    ∃ out, add_noise T bs be clean noise ts = some out ∧
      out.length = clean.length ∧
      (∀ b, (out.getD b []).length = (clean.getD b []).length) ∧
      (∀ b j, b < clean.length → j < (clean.getD b []).length →
        (out.getD b []).getD j 0 =
          Real.sqrt ((∏ i in Finset.range (ts.getD b 0 + 1),
              (1 - betaLin T bs be i) : ℚ)) * (clean.getD b []).getD j 0 +
            Real.sqrt (1 - ((∏ i in Finset.range (ts.getD b 0 + 1),
              (1 - betaLin T bs be i) : ℚ) : ℝ)) * (noise.getD b []).getD j 0) :=
  add_noise_spec T bs be clean noise ts hts hshape hvalid

/-- Witness for C1 at a concrete two-step scheduler and one-image batch. -/
theorem claim_C1_add_noise_witness :
    ∃ out, add_noise 2 (1/10000) (1/50) [[1]] [[1]] [1] = some out ∧
      out.length = ([[1]] : List (List ℝ)).length ∧
      (∀ b, (out.getD b []).length =
        (([[1]] : List (List ℝ)).getD b []).length) ∧
      (∀ b j, b < ([[1]] : List (List ℝ)).length →
        j < (([[1]] : List (List ℝ)).getD b []).length →
        (out.getD b []).getD j 0 =
          Real.sqrt ((∏ i in Finset.range (([1] : List ℕ).getD b 0 + 1),
              (1 - betaLin 2 (1/10000) (1/50) i) : ℚ)) *
              (([[1]] : List (List ℝ)).getD b []).getD j 0 +
            Real.sqrt (1 - ((∏ i in Finset.range (([1] : List ℕ).getD b 0 + 1),
              (1 - betaLin 2 (1/10000) (1/50) i) : ℚ) : ℝ)) *
              (([[1]] : List (List ℝ)).getD b []).getD j 0) :=
  claim_C1_add_noise 2 (1/10000) (1/50) [[1]] [[1]] [1] rfl rfl (by decide)

/-- C2: the sampling loop performs exactly `T` reverse iterations, visiting the
timesteps in strictly descending order `T-1, T-2, …, 0`, and at each iteration
replaces the sample with the result of `step` applied to the model's prediction
for the current sample and timestep. -/
theorem claim_C2_sampling_loop (T : ℕ) (bs be : ℚ)
    (model : List ℝ → ℕ → List ℝ) (zs : ℕ → List ℝ) (init : List ℝ) :
    (timesteps T).length = T ∧
    List.Pairwise (· > ·) (timesteps T) ∧
    (∀ i, i < T → (timesteps T).getD i 0 = T - 1 - i) ∧
    sampling_loop T bs be model zs init =
      runFrom T bs be model zs T (some init) ∧
    (∀ n acc, runFrom T bs be model zs (n + 1) acc =
      runFrom T bs be model zs n
        (acc.bind fun s => step T bs be (model s n) n s (zs n))) := by
  refine ⟨timesteps_length T, timesteps_sorted T, fun i hi => timesteps_getD T i hi,
    foldl_runFrom T bs be model zs T (some init), fun n acc => rfl⟩

/-- Witness for C2 at a concrete three-step scheduler. -/
theorem claim_C2_sampling_loop_witness :
    (timesteps 3).length = 3 ∧
    List.Pairwise (· > ·) (timesteps 3) ∧
    (∀ i, i < 3 → (timesteps 3).getD i 0 = 3 - 1 - i) ∧
    sampling_loop 3 (1/10000) (1/50) (fun _ _ => []) (fun _ => []) [] =
      runFrom 3 (1/10000) (1/50) (fun _ _ => []) (fun _ => []) 3 (some []) ∧
    (∀ n acc, runFrom 3 (1/10000) (1/50) (fun _ _ => []) (fun _ => []) (n + 1) acc =
      runFrom 3 (1/10000) (1/50) (fun _ _ => []) (fun _ => []) n
        (acc.bind fun s =>
          step 3 (1/10000) (1/50) ((fun _ _ => ([] : List ℝ)) s n) n s
            ((fun _ => ([] : List ℝ)) n))) :=
  claim_C2_sampling_loop 3 (1/10000) (1/50) (fun _ _ => []) (fun _ => []) []

/-- C3: a training iteration corrupts the clean batch with `add_noise` at the
drawn per-sample timesteps (each drawn from `[0, T-1]`), runs the model on the
corrupted batch, and produces as loss the mean squared error between the
model's prediction and the injected noise. -/
theorem claim_C3_training_step (T : ℕ) (bs be : ℚ)
    (model : List (List ℝ) → List ℕ → List (List ℝ))
    (clean noise : List (List ℝ)) (ts : List ℕ)
    (hts : ts.length = clean.length)
    (hshape : noise.map List.length = clean.map List.length)
    (hvalid : ∀ t ∈ ts, t < T) :
    ∃ noisy, add_noise T bs be clean noise ts = some noisy ∧
      (∀ b j, b < clean.length → j < (clean.getD b []).length →
        (noisy.getD b []).getD j 0 =
          Real.sqrt ((alphaBar T bs be (ts.getD b 0) : ℚ)) *
              (clean.getD b []).getD j 0 +
            Real.sqrt (1 - ((alphaBar T bs be (ts.getD b 0) : ℚ) : ℝ)) *
              (noise.getD b []).getD j 0) ∧
      train_step T bs be model clean noise ts =
        some (mse_loss (model noisy ts).flatten noise.flatten) ∧
      (∀ p q : List ℝ, p.length = q.length →
        mse_loss p q = (∑ i in Finset.range p.length,
          (p.getD i 0 - q.getD i 0) ^ 2) / p.length) := by
  obtain ⟨out, hsome, hlen, hitem, hform⟩ :=
    add_noise_spec T bs be clean noise ts hts hshape hvalid
  refine ⟨out, hsome, hform, ?_, mse_loss_eq_sum⟩
  unfold train_step
  rw [hsome]
  rfl

/-- Witness for C3 at a concrete two-step scheduler and one-image batch. -/
theorem claim_C3_training_step_witness :
    ∃ noisy, add_noise 2 (1/10000) (1/50) [[1]] [[1]] [0] = some noisy ∧
      (∀ b j, b < ([[1]] : List (List ℝ)).length →
        j < (([[1]] : List (List ℝ)).getD b []).length →
        (noisy.getD b []).getD j 0 =
          Real.sqrt ((alphaBar 2 (1/10000) (1/50) (([0] : List ℕ).getD b 0) : ℚ)) *
              (([[1]] : List (List ℝ)).getD b []).getD j 0 +
            Real.sqrt (1 - ((alphaBar 2 (1/10000) (1/50)
                (([0] : List ℕ).getD b 0) : ℚ) : ℝ)) *
              (([[1]] : List (List ℝ)).getD b []).getD j 0) ∧
      train_step 2 (1/10000) (1/50) (fun _ _ => [[0]]) [[1]] [[1]] [0] =
        some (mse_loss ((fun (_ : List (List ℝ)) (_ : List ℕ) =>
          ([[0]] : List (List ℝ))) noisy [0]).flatten
          ([[1]] : List (List ℝ)).flatten) ∧
      (∀ p q : List ℝ, p.length = q.length →
        mse_loss p q = (∑ i in Finset.range p.length,
          (p.getD i 0 - q.getD i 0) ^ 2) / p.length) :=
  claim_C3_training_step 2 (1/10000) (1/50) (fun _ _ => [[0]]) [[1]] [[1]] [0]
    rfl rfl (by decide)

/-- C4: for every scheduler built from a valid linear configuration, the
precomputed table satisfies `ᾱ_t = ∏_{i ≤ t} (1 - β_i)` at every valid `t`,
every `β_t` lies strictly between 0 and 1, `ᾱ` is monotonically non-increasing
in `t`, and for the default 1000-step configuration `ᾱ` at the first timestep
is `0.9999 ≈ 1` while at the last timestep it lies below `10⁻⁴ ≈ 0`. -/
theorem claim_C4_schedule_invariants (T : ℕ) (bs be : ℚ)
    (hT : 1 ≤ T) (h0 : 0 < bs) (hbe : bs ≤ be) (h1 : be < 1) :
    (∀ t, t < T →
      (alphas_cumprod T bs be).getD t 0 =
        ∏ i in Finset.range (t + 1), (1 - betaLin T bs be i)) ∧
    (∀ t, t < T →
      0 < (betas T bs be).getD t 0 ∧ (betas T bs be).getD t 0 < 1) ∧
    (∀ t t', t ≤ t' → t' < T →
      (alphas_cumprod T bs be).getD t' 0 ≤ (alphas_cumprod T bs be).getD t 0) ∧
    (alphas_cumprod 1000 (1/10000) (1/50)).getD 0 0 = 9999/10000 ∧
    (alphas_cumprod 1000 (1/10000) (1/50)).getD 999 0 < 1/10000 := by
  refine ⟨?_, ?_, ?_, ?_, ?_⟩
  · intro t ht
    exact alphas_cumprod_getD T bs be t ht
  · intro t ht
    rw [betas_getD T bs be t ht]
    exact ⟨betaLin_pos T bs be t hT h0 hbe, betaLin_lt_one T bs be t ht hbe h1⟩
  · intro t t' htt ht'
    rw [alphas_cumprod_getD T bs be t' ht',
        alphas_cumprod_getD T bs be t (lt_of_le_of_lt htt ht')]
    exact alphaBar_anti T bs be t t' htt ht' hT h0 hbe h1
  · rw [alphas_cumprod_getD 1000 (1/10000) (1/50) 0 (by norm_num)]
    exact alphaBar_default_zero
  · rw [alphas_cumprod_getD 1000 (1/10000) (1/50) 999 (by norm_num)]
    exact alphaBar_default_bound

/-- Witness for C4 at the default configuration (T = 1000, linear schedule
from 0.0001 to 0.02). -/
theorem claim_C4_schedule_invariants_witness :
    (∀ t, t < 1000 →
      (alphas_cumprod 1000 (1/10000) (1/50)).getD t 0 =
        ∏ i in Finset.range (t + 1), (1 - betaLin 1000 (1/10000) (1/50) i)) ∧
    (∀ t, t < 1000 →
      0 < (betas 1000 (1/10000) (1/50)).getD t 0 ∧
        (betas 1000 (1/10000) (1/50)).getD t 0 < 1) ∧
    (∀ t t', t ≤ t' → t' < 1000 →
      (alphas_cumprod 1000 (1/10000) (1/50)).getD t' 0 ≤
        (alphas_cumprod 1000 (1/10000) (1/50)).getD t 0) ∧
    (alphas_cumprod 1000 (1/10000) (1/50)).getD 0 0 = 9999/10000 ∧
    (alphas_cumprod 1000 (1/10000) (1/50)).getD 999 0 < 1/10000 :=
  claim_C4_schedule_invariants 1000 (1/10000) (1/50) (by norm_num)
    (by decide) (by decide) (by decide)

/-- C5: for every valid input, `step` at `t > 0` adds fresh Gaussian noise
scaled by the posterior standard deviation to the posterior mean, while at
`t = 0` the noise contribution has exactly zero variance and the result is a
deterministic function of the sample and the model output, independent of the
drawn noise. -/
theorem claim_C5_terminal_step (T : ℕ) (bs be : ℚ) (mo sample z : List ℝ)
    (t : ℕ) (ht : t < T) (hmo : mo.length = sample.length)
    (hz : z.length = sample.length) :
    postVar T bs be 0 = 0 ∧
    (∀ z', z'.length = sample.length →
      step T bs be mo 0 sample z = step T bs be mo 0 sample z') ∧
    ∃ out, step T bs be mo t sample z = some out ∧
      out.length = sample.length ∧
      ∀ j, j < sample.length →
        out.getD j 0 =
          ddpmMean T bs be t (mo.getD j 0) (sample.getD j 0) +
            (if t = 0 then 0 else
              Real.sqrt ((postVar T bs be t : ℚ)) * z.getD j 0) :=
  ⟨postVar_zero T bs be,
    fun z' hz' => step_zero_no_noise T bs be mo sample z z' (by omega) hmo hz hz',
    step_spec T bs be mo t sample z ht hmo hz⟩

/-- Witness for C5 at a concrete two-step scheduler and singleton tensors. -/
theorem claim_C5_terminal_step_witness :
    postVar 2 (1/10000) (1/50) 0 = 0 ∧
    (∀ z', z'.length = ([0] : List ℝ).length →
      step 2 (1/10000) (1/50) [0] 0 [0] [0] = step 2 (1/10000) (1/50) [0] 0 [0] z') ∧
    ∃ out, step 2 (1/10000) (1/50) [0] 1 [0] [0] = some out ∧
      out.length = ([0] : List ℝ).length ∧
      ∀ j, j < ([0] : List ℝ).length →
        out.getD j 0 =
          ddpmMean 2 (1/10000) (1/50) 1 (([0] : List ℝ).getD j 0)
              (([0] : List ℝ).getD j 0) +
            (if 1 = 0 then 0 else
              Real.sqrt ((postVar 2 (1/10000) (1/50) 1 : ℚ)) *
                ([0] : List ℝ).getD j 0) :=
  claim_C5_terminal_step 2 (1/10000) (1/50) [0] [0] [0] 1 (by decide) rfl rfl

/-- C6: a timestep outside `[0, T-1]` — in particular `t = T` — passed to
`add_noise` or `step` fails the input validation and yields no value (no
silent clamping). -/
theorem claim_C6_out_of_range (T : ℕ) (bs be : ℚ) (mo sample z : List ℝ)
    (clean noise : List (List ℝ)) (ts : List ℕ) (t : ℕ)
    (ht : T ≤ t) (hmem : t ∈ ts) :
    step T bs be mo t sample z = none ∧
      add_noise T bs be clean noise ts = none := by
  constructor
  · unfold step
    have hneg : ¬(t < T ∧ mo.length = sample.length ∧ z.length = sample.length) :=
      fun h => absurd h.1 (not_lt.mpr ht)
    rw [if_neg hneg]
  · unfold add_noise
    have hneg : ¬(ts.length = clean.length ∧
        noise.map List.length = clean.map List.length ∧ ∀ u ∈ ts, u < T) :=
      fun h => absurd (h.2.2 t hmem) (not_lt.mpr ht)
    rw [if_neg hneg]

/-- Witness for C6: a three-step scheduler rejects timestep 3. -/
theorem claim_C6_out_of_range_witness :
    step 3 (1/10000) (1/50) [0] 3 [0] [0] = none ∧
      add_noise 3 (1/10000) (1/50) [[0]] [[0]] [3] = none :=
  claim_C6_out_of_range 3 (1/10000) (1/50) [0] [0] [0] [[0]] [[0]] [3] 3
    (by decide) (by decide)

/-- C7: two runs of the full sampling loop that start from the same seed-derived
initial sample, use the same seed-derived noise stream, and query models that
agree on every input produce identical outputs: the result is a deterministic
function of the seed and the model outputs alone. -/
theorem claim_C7_reproducible (T : ℕ) (bs be : ℚ)
    (m₁ m₂ : List ℝ → ℕ → List ℝ) (zs₁ zs₂ : ℕ → List ℝ) (init : List ℝ)
    (hm : ∀ s t, m₁ s t = m₂ s t) (hz : ∀ i, zs₁ i = zs₂ i) :
    sampling_loop T bs be m₁ zs₁ init = sampling_loop T bs be m₂ zs₂ init := by
  unfold sampling_loop
  apply List.foldl_ext
  intro acc t _
  unfold sampleStep
  congr 1
  funext s
  rw [hm s t, hz t]

/-- Witness for C7: two runs with the constant all-zero model output and the
same noise stream coincide. -/
theorem claim_C7_reproducible_witness :
    sampling_loop 3 (1/10000) (1/50) (fun _ _ => [0]) (fun _ => [0]) [0] =
      sampling_loop 3 (1/10000) (1/50) (fun _ _ => [0]) (fun _ => [0]) [0] :=
  claim_C7_reproducible 3 (1/10000) (1/50) (fun _ _ => [0]) (fun _ _ => [0])
    (fun _ => [0]) (fun _ => [0]) [0] (fun _ _ => rfl) (fun _ => rfl)

/-- C8: each training iteration appends exactly one scalar loss to the running
loss log; over a run, the log grows by exactly one entry per batch with the
previous entries preserved, and apart from the log and the delegated parameter
update no other state component exists to be mutated. -/
theorem claim_C8_loss_log {P : Type*} (T : ℕ) (bs be : ℚ)
    (modelOf : P → List (List ℝ) → List ℕ → List (List ℝ))
    (optStep : P → ℝ → P) (clean noise : List (List ℝ)) (ts : List ℕ)
    (batches : List (List (List ℝ) × List (List ℝ) × List ℕ))
    (st : TrainState P) :
    (train_iteration T bs be modelOf optStep clean noise ts st).losses =
      st.losses ++
        [(train_step T bs be (modelOf st.params) clean noise ts).getD 0] ∧
    (∃ new : List ℝ,
      (train_run T bs be modelOf optStep batches st).losses =
        st.losses ++ new ∧ new.length = batches.length) ∧
    (train_run T bs be modelOf optStep batches st).losses.length =
      st.losses.length + batches.length := by
  obtain ⟨new, hnew, hlen⟩ := train_run_losses T bs be modelOf optStep batches st
  exact ⟨rfl, ⟨new, hnew, hlen⟩, by rw [hnew]; simp [hlen]⟩

/-- C9: seeding the backward pass with the loss itself, as `loss.backward(loss)`
does, accumulates the loss value times the derivative of the loss — the
derivative of half the squared loss — which differs from the derivative of the
loss itself. -/
theorem claim_C9_backward_seed (L : ℝ → ℝ) (θ : ℝ)
    (hL : DifferentiableAt ℝ L θ) :
    backward_self_seeded L θ = L θ * deriv L θ ∧
    backward_self_seeded L θ = deriv (fun x => L x ^ 2 / 2) θ ∧
    backward_self_seeded (fun x : ℝ => x) 2 ≠ deriv (fun x : ℝ => x) 2 := by
  refine ⟨rfl, ?_, ?_⟩
  · have h := ((hL.hasDerivAt.pow 2).div_const 2).deriv
    rw [h]
    show L θ * deriv L θ = _
    norm_num
    ring
  · show (fun x : ℝ => x) 2 * deriv (fun x : ℝ => x) 2 ≠ deriv (fun x : ℝ => x) 2
    rw [deriv_id'']
    norm_num

/-- Witness for C9 at the identity loss. -/
theorem claim_C9_backward_seed_witness :
    backward_self_seeded (fun x : ℝ => x) 0 =
      (fun x : ℝ => x) 0 * deriv (fun x : ℝ => x) 0 ∧
    backward_self_seeded (fun x : ℝ => x) 0 =
      deriv (fun x => (fun x : ℝ => x) x ^ 2 / 2) 0 ∧
    backward_self_seeded (fun x : ℝ => x) 2 ≠ deriv (fun x : ℝ => x) 2 :=
  claim_C9_backward_seed (fun x : ℝ => x) 0 differentiableAt_id'

/-- C10: running the full sampling loop leaves the model parameters, the
accumulated gradients and the scheduler's schedule table unchanged — only the
sample component of the generation state evolves. -/
theorem claim_C10_generation_frame {P : Type*} (T : ℕ) (bs be : ℚ)
    (modelOf : P → List ℝ → ℕ → List ℝ) (zs : ℕ → List ℝ) (st : GenState P) :
    (sampling_run T bs be modelOf zs st).params = st.params ∧
    (sampling_run T bs be modelOf zs st).grads = st.grads ∧
    (sampling_run T bs be modelOf zs st).sched = st.sched :=
  sampling_run_frame T bs be modelOf zs (timesteps T) st

end Diffusion
